import Mathlib

/-!
A shallow embedding of the holder-analysis core of `alchemy_client.py`
(class `AlchemyClient`) together with proofs of its specified properties.

Modelling conventions:
* Python strings are Lean `String`s; `str.lower()` is modelled by `pyLower`,
  which lowers the ASCII range `A`-`Z` (sufficient for hex addresses).
* A JSON transfer record is a `Transfer`: the fields `"from"`, `"to"` and
  `"value"` may each be absent (`Option`), matching `dict.get` with its
  defaults in the source.
* Python's builtin `int(s)` / `int(s, 16)` is modelled by `pyInt10` /
  `pyInt16` on the subset relevant here: an optional sign, for base 16 an
  optional `0x`/`0X` prefix, then a non-empty run of digits (the builtin
  additionally tolerates surrounding whitespace and grouping underscores,
  which no property below depends on).
* The `defaultdict(int)` accumulator is modelled as a total function
  `String → Int` (absent key = 0); a dict update `balances[k] -= v` is the
  pointwise function that differs from the old one exactly at `k`.
* The final dict comprehension `{addr: bal for ... if bal > 0}` is modelled
  two ways: as the key → value map `calculate_token_balances` (Python dict
  equality `==` disregards insertion order), and as the insertion-ordered
  item list `balancesItems` (the iteration order `sorted` sees).
-/

/-- ASCII lower-casing of one character, as `str.lower()` acts on `A`-`Z`. -/
def pyCharLower (c : Char) : Char :=
  if 'A' ≤ c ∧ c ≤ 'Z' then Char.ofNat (c.toNat + 32) else c

/-- `str.lower()` on the ASCII subset used by hex addresses. -/
def pyLower (s : String) : String :=
  ⟨s.data.map pyCharLower⟩

/-- `s.startswith("0x")` (case-sensitive, exactly as in the source). -/
def startsWith0x (s : String) : Bool :=
  match s.data with
  | '0' :: 'x' :: _ => true
  | _ => false

/-- Value of one hexadecimal digit, `none` for a non-digit. -/
def hexDigitVal (c : Char) : Option Nat :=
  if '0' ≤ c ∧ c ≤ '9' then some (c.toNat - '0'.toNat)
  else if 'a' ≤ c ∧ c ≤ 'f' then some (c.toNat - 'a'.toNat + 10)
  else if 'A' ≤ c ∧ c ≤ 'F' then some (c.toNat - 'A'.toNat + 10)
  else none

/-- Value of one decimal digit, `none` for a non-digit. -/
def decDigitVal (c : Char) : Option Nat :=
  if '0' ≤ c ∧ c ≤ '9' then some (c.toNat - '0'.toNat) else none

/-- Accumulate a run of digits left to right; fails on any non-digit. -/
def digitsVal (dv : Char → Option Nat) (base : Nat) : List Char → Nat → Option Nat
  | [], acc => some acc
  | c :: cs, acc =>
    match dv c with
    | some d => digitsVal dv base cs (base * acc + d)
    | none => none

/-- A non-empty all-digit run parses to its value; anything else fails. -/
def parseDigits (dv : Char → Option Nat) (base : Nat) (cs : List Char) : Option Nat :=
  if cs.isEmpty then none else digitsVal dv base cs 0

/-- Drop one leading `0x`/`0X`, as `int(·, 16)` does after the sign. -/
def dropHex0x : List Char → List Char
  | '0' :: 'x' :: rest => rest
  | '0' :: 'X' :: rest => rest
  | cs => cs

/-- Digits part of `int(·, base)`: optional `0x` strip (base 16 only). -/
def pyIntCore (dv : Char → Option Nat) (base : Nat) (hex0x : Bool) (cs : List Char) : Option Nat :=
  parseDigits dv base (if hex0x then dropHex0x cs else cs)

/-- Python `int(s, base)` on our subset: optional sign, then digits. -/
def pyIntOfChars (dv : Char → Option Nat) (base : Nat) (hex0x : Bool) : List Char → Option Int
  | '-' :: rest => (pyIntCore dv base hex0x rest).map (fun n => -(n : Int))
  | '+' :: rest => (pyIntCore dv base hex0x rest).map (fun n => (n : Int))
  | cs => (pyIntCore dv base hex0x cs).map (fun n => (n : Int))

/-- Python `int(s, 16)`. -/
def pyInt16 (s : String) : Option Int :=
  pyIntOfChars hexDigitVal 16 true s.data

/-- Python `int(s)` (base 10). -/
def pyInt10 (s : String) : Option Int :=
  pyIntOfChars decDigitVal 10 false s.data

/-- The possible runtime types of a transfer's `"value"` field: a string,
a numeric value (`int`; a `float` arriving here is truncated by `int()` and
is modelled by its integral part), or anything else. -/
inductive PyValue where
  | vstr (s : String)
  | vint (n : Int)
  | vnone
deriving DecidableEq

/-- Lines 93-101 of `alchemy_client.py`: a string is parsed base 16 iff it
starts with `0x`, else base 10; numbers pass through; other types and
parse failures yield `none` (the `continue` branches). -/
def pyParseValue : PyValue → Option Int
  | .vstr s => if startsWith0x s then pyInt16 s else pyInt10 s
  | .vint n => some n
  | .vnone => none

/-- One raw transfer record, with the three fields the reconstruction
reads; each may be absent from the JSON object. -/
structure Transfer where
  fromA : Option String
  toA : Option String
  value : Option PyValue
deriving DecidableEq

/-- The mint/burn sentinel address of `calculate_token_balances`. -/
def zeroAddress : String := "0x0000000000000000000000000000000000000000"

/-- The loop body of `calculate_token_balances` (lines 87-108) for one
transfer: parse the value (default `"0x0"` when the field is absent),
lower-case both addresses (default `""`), then subtract at the sender and
add at the receiver unless that side is empty (falsy) or the sentinel.
A dict update `balances[k] ± v` is the pointwise update at key `k`. -/
def applyTransfer (b : String → Int) (t : Transfer) : String → Int :=
  match pyParseValue (t.value.getD (PyValue.vstr "0x0")) with
  | none => b
  | some v =>
    let fa := pyLower (t.fromA.getD "")
    let ta := pyLower (t.toA.getD "")
    let b1 : String → Int := fun a =>
      if (fa ≠ "" ∧ fa ≠ zeroAddress) ∧ a = fa then b a - v else b a
    fun a => if (ta ≠ "" ∧ ta ≠ zeroAddress) ∧ a = ta then b1 a + v else b1 a

/-- Net effect of one transfer on the accumulator at address `a`. -/
def deltaT (t : Transfer) (a : String) : Int :=
  match pyParseValue (t.value.getD (PyValue.vstr "0x0")) with
  | none => 0
  | some v =>
    let fa := pyLower (t.fromA.getD "")
    let ta := pyLower (t.toA.getD "")
    (if (fa ≠ "" ∧ fa ≠ zeroAddress) ∧ a = fa then -v else 0)
      + (if (ta ≠ "" ∧ ta ≠ zeroAddress) ∧ a = ta then v else 0)

/-- The accumulator after the whole loop, started from the empty
`defaultdict(int)` (every address at 0). -/
def rawBalances (ts : List Transfer) : String → Int :=
  ts.foldl applyTransfer (fun _ => 0)

/-- Line 111: the returned dict keeps exactly the strictly positive
accumulator entries, viewed as a key → value map. -/
def calculate_token_balances (ts : List Transfer) : String → Option Int := fun a =>
  let b := rawBalances ts a
  if 0 < b then some b else none

/-- Keys the loop body touches for one transfer, in touch order (sender
then receiver), skipping the falsy/sentinel sides and unparsable values. -/
def touchedKeys (t : Transfer) : List String :=
  match pyParseValue (t.value.getD (PyValue.vstr "0x0")) with
  | none => []
  | some _ =>
    let fa := pyLower (t.fromA.getD "")
    let ta := pyLower (t.toA.getD "")
    (if fa ≠ "" ∧ fa ≠ zeroAddress then [fa] else [])
      ++ (if ta ≠ "" ∧ ta ≠ zeroAddress then [ta] else [])

/-- Record a key in first-touch order, as a `defaultdict` does. -/
def insertKey (ks : List String) (k : String) : List String :=
  if k ∈ ks then ks else ks ++ [k]

/-- All keys of the accumulator dict, in insertion order. -/
def keyOrder (ts : List Transfer) : List String :=
  ts.foldl (fun ks t => (touchedKeys t).foldl insertKey ks) []

/-- The dict returned by `calculate_token_balances` as its item list in
Python dict iteration order: keys in first-touch order, each with its
final accumulator value, keeping only the strictly positive entries. -/
def balancesItems (ts : List Transfer) : List (String × Int) :=
  (keyOrder ts).filterMap fun a =>
    let b := rawBalances ts a
    if 0 < b then some (a, b) else none

/-- Outcome of one `alchemy_getAssetTransfers` call as the pagination loop
observes it: a result object (`transfers` list and optional `pageKey`), or
a raised exception. -/
inductive FetchResult where
  | ok (batch : List Transfer) (pageKey : Option String)
  | err
deriving DecidableEq

/-- The `while True` pagination loop of `get_asset_transfers` (lines
48-71), driven by the script of successive upstream responses; `acc` is
the `transfers` accumulator. An exception breaks the loop and the
accumulator so far is returned; after a successful page the loop stops
when the response carries no `pageKey` (or a falsy empty-string one) or an
empty batch. An exhausted script also returns the accumulator. -/
def getTransfersGo : List FetchResult → List Transfer → List Transfer
  | [], acc => acc
  | FetchResult.err :: _, acc => acc
  | FetchResult.ok batch pk :: rest, acc =>
    let acc2 := acc ++ batch
    match pk with
    | none => acc2
    | some k => if k = "" ∨ batch = [] then acc2 else getTransfersGo rest acc2

/-- `get_asset_transfers`, starting from the empty accumulator. -/
def get_asset_transfers (resps : List FetchResult) : List Transfer :=
  getTransfersGo resps []

/-- Lines 135-139: `sorted(balances.items(), key=lambda x: x[1],
reverse=True)[:top_n]` — a stable descending sort on the balance
component, truncated to the first `top_n` entries. -/
def rankTop (items : List (String × Int)) (top_n : Nat) : List (String × Int) :=
  (items.mergeSort (fun x y => decide (y.2 ≤ x.2))).take top_n

/-- `get_top_holders` (lines 113-143) once the transfers are in hand: an
empty transfer list and an empty balance dict each short-circuit to `[]`. -/
def get_top_holders_from (transfers : List Transfer) (top_n : Nat) : List (String × Int) :=
  if transfers.isEmpty then []
  else
    let balances := balancesItems transfers
    if balances.isEmpty then []
    else rankTop balances top_n

/-- `get_top_holders` composed with the pagination loop. -/
def get_top_holders (resps : List FetchResult) (top_n : Nat) : List (String × Int) :=
  get_top_holders_from (get_asset_transfers resps) top_n

/-- `address[2:]` after the `startswith("0x")` test of `is_valid_address`. -/
def strip0x (s : String) : String :=
  if startsWith0x s then String.mk (s.data.drop 2) else s

/-- `is_valid_address` (lines 239-256): the empty string is falsy and
rejected; one leading `0x` is stripped; exactly 40 characters must remain
and `int(·, 16)` must accept them. -/
def is_valid_address (s : String) : Bool :=
  if s = "" then false
  else
    let a := strip0x s
    if a.data.length ≠ 40 then false
    else (pyInt16 a).isSome

/-- A hexadecimal character, `0-9`/`a-f`/`A-F`. -/
def isHexChar (c : Char) : Bool :=
  (hexDigitVal c).isSome

/-- Address validity in the spec's words, for comparison with
`is_valid_address`: "a 40-hex-character string (after optional `0x`
strip)". -/
def spec_valid_address (s : String) : Bool :=
  decide ((strip0x s).data.length = 40) && (strip0x s).data.all isHexChar

/-- The magnitude suffix chosen by `format_balance`. -/
inductive Suffix where
  | M
  | K
  | plain
deriving DecidableEq

/-- Lines 219-224 of `format_balance`: a balance under `1e12` is taken as
already human-readable, otherwise it is divided by `10 ** decimals`.
Python float arithmetic is modelled by exact rationals. -/
def readableBalance (balance : Int) (decimals : Nat) : ℚ :=
  if (balance : ℚ) < 1000000000000 then (balance : ℚ)
  else (balance : ℚ) / 10 ^ decimals

/-- Lines 226-231: the rendered magnitude and its suffix (`x/1e6` with `M`
from one million, `x/1e3` with `K` from one thousand, else the value
itself; the `.2f`/`.4f` digit rendering of the string is not modelled). -/
def format_balance (balance : Int) (decimals : Nat) : ℚ × Suffix :=
  let r := readableBalance balance decimals
  if 1000000 ≤ r then (r / 1000000, Suffix.M)
  else if 1000 ≤ r then (r / 1000, Suffix.K)
  else (r, Suffix.plain)


theorem applyTransfer_point (b : String → Int) (t : Transfer) (a : String) :
    applyTransfer b t a = b a + deltaT t a := by
  unfold applyTransfer deltaT
  cases pyParseValue (t.value.getD (PyValue.vstr "0x0")) with
  | none => simp
  | some v =>
    simp only []
    split_ifs <;> omega

theorem applyTransfer_comm (b : String → Int) (t₁ t₂ : Transfer) :
    applyTransfer (applyTransfer b t₁) t₂ = applyTransfer (applyTransfer b t₂) t₁ := by
  funext a
  simp only [applyTransfer_point]
  omega

theorem foldl_applyTransfer_point (ts : List Transfer) (b : String → Int) (a : String) :
    ts.foldl applyTransfer b a = b a + (ts.map (fun t => deltaT t a)).sum := by
  induction ts generalizing b with
  | nil => simp
  | cons t ts ih =>
    simp only [List.foldl_cons, List.map_cons, List.sum_cons, ih, applyTransfer_point]
    omega

theorem foldl_applyTransfer_perm {l₁ l₂ : List Transfer} (h : l₁.Perm l₂) :
    ∀ b : String → Int, l₁.foldl applyTransfer b = l₂.foldl applyTransfer b := by
  induction h with
  | nil => intro b; rfl
  | cons x h ih => intro b; simp only [List.foldl_cons]; exact ih _
  | swap x y l => intro b; simp only [List.foldl_cons]; rw [applyTransfer_comm]
  | trans h₁ h₂ ih₁ ih₂ => intro b; rw [ih₁, ih₂]

/-- C1: for every list of transfer records, applying `calculate_token_balances`
to any permutation of the list produces an identical balance mapping. -/
theorem calculate_token_balances_perm (ts₁ ts₂ : List Transfer) (h : ts₁.Perm ts₂) :
    calculate_token_balances ts₁ = calculate_token_balances ts₂ := by
  have hr : rawBalances ts₁ = rawBalances ts₂ := foldl_applyTransfer_perm h _
  funext a
  simp [calculate_token_balances, hr]

theorem calculate_token_balances_perm_witness :
    calculate_token_balances
        [⟨some "0xA", some "0xB", some (.vstr "0x5")⟩, ⟨some "0xB", some "0xC", some (.vint 2)⟩]
      = calculate_token_balances
        [⟨some "0xB", some "0xC", some (.vint 2)⟩, ⟨some "0xA", some "0xB", some (.vstr "0x5")⟩] :=
  calculate_token_balances_perm _ _ (List.Perm.swap _ _ _)

/-- C2: every key of the returned mapping carries a strictly positive
balance, and an address whose accumulated balance is ≤ 0 is absent. -/
theorem calculate_token_balances_pos (ts : List Transfer) (a : String) :
    (∀ n : Int, calculate_token_balances ts a = some n → 0 < n)
    ∧ (rawBalances ts a ≤ 0 → calculate_token_balances ts a = none) := by
  constructor
  · intro n hn
    by_cases h : 0 < rawBalances ts a
    · simp only [calculate_token_balances, if_pos h, Option.some.injEq] at hn
      omega
    · simp only [calculate_token_balances, if_neg h] at hn
      exact Option.noConfusion hn
  · intro h
    have h2 : ¬ (0 < rawBalances ts a) := by omega
    simp only [calculate_token_balances, if_neg h2]

theorem calculate_token_balances_pos_witness :
    ((0 : Int) < 5)
    ∧ calculate_token_balances [⟨some "0xA", some "0xB", some (.vstr "0x5")⟩] "0xa" = none :=
  ⟨(calculate_token_balances_pos [⟨some "0xA", some "0xB", some (.vstr "0x5")⟩] "0xb").1 5
      (by decide),
   (calculate_token_balances_pos [⟨some "0xA", some "0xB", some (.vstr "0x5")⟩] "0xa").2
      (by decide)⟩

theorem deltaT_eq_zero (t : Transfer) (a : String) (ha : a = "" ∨ a = zeroAddress) :
    deltaT t a = 0 := by
  unfold deltaT
  cases pyParseValue (t.value.getD (PyValue.vstr "0x0")) with
  | none => rfl
  | some v =>
    simp only []
    have h1 : ¬((pyLower (t.fromA.getD "") ≠ "" ∧ pyLower (t.fromA.getD "") ≠ zeroAddress)
        ∧ a = pyLower (t.fromA.getD "")) := by
      rintro ⟨⟨he, hz⟩, h'⟩
      rcases ha with ha | ha <;> subst ha
      · exact he h'.symm
      · exact hz h'.symm
    have h2 : ¬((pyLower (t.toA.getD "") ≠ "" ∧ pyLower (t.toA.getD "") ≠ zeroAddress)
        ∧ a = pyLower (t.toA.getD "")) := by
      rintro ⟨⟨he, hz⟩, h'⟩
      rcases ha with ha | ha <;> subst ha
      · exact he h'.symm
      · exact hz h'.symm
    rw [if_neg h1, if_neg h2]
    norm_num

theorem rawBalances_eq_zero (ts : List Transfer) (a : String) (ha : a = "" ∨ a = zeroAddress) :
    rawBalances ts a = 0 := by
  unfold rawBalances
  rw [foldl_applyTransfer_point]
  have hz : ∀ x ∈ ts.map (fun t => deltaT t a), x = 0 := by
    intro x hx
    rcases List.mem_map.mp hx with ⟨t, -, rfl⟩
    exact deltaT_eq_zero t a ha
  rw [List.sum_eq_zero hz]
  norm_num

/-- C3: the all-zero sentinel address never appears as a key of the mapping
returned by `calculate_token_balances`, for every transfer list. -/
theorem calculate_token_balances_sentinel (ts : List Transfer) :
    calculate_token_balances ts zeroAddress = none := by
  have h := rawBalances_eq_zero ts zeroAddress (Or.inr rfl)
  simp [calculate_token_balances, h]

/-- C4: a `0x`-prefixed value string parses base 16 (`"0x1a"` is 26), a
decimal string parses base 10 (`"26"` is 26), and a transfer whose value
does not parse leaves every balance unchanged. -/
theorem value_parsing_spec :
    pyParseValue (.vstr "0x1a") = some 26
    ∧ pyParseValue (.vstr "26") = some 26
    ∧ ∀ (t : Transfer) (b : String → Int),
        pyParseValue (t.value.getD (PyValue.vstr "0x0")) = none → applyTransfer b t = b := by
  refine ⟨by decide, by decide, ?_⟩
  intro t b h
  unfold applyTransfer
  rw [h]

theorem value_parsing_spec_witness :
    applyTransfer (fun _ => 0) ⟨some "0xA", some "0xB", some PyValue.vnone⟩ = (fun _ => 0) :=
  value_parsing_spec.2.2 _ _ rfl

theorem getTransfersGo_pages (pages : List (List Transfer × String))
    (rest : List FetchResult) (hp : ∀ p ∈ pages, p.1 ≠ [] ∧ p.2 ≠ "") :
    ∀ acc, getTransfersGo
        ((pages.map fun p => FetchResult.ok p.1 (some p.2)) ++ FetchResult.err :: rest) acc
      = acc ++ (pages.map Prod.fst).flatten := by
  induction pages with
  | nil => intro acc; simp [getTransfersGo]
  | cons p ps ih =>
    intro acc
    obtain ⟨hb, hk⟩ := hp p (by simp)
    simp only [List.map_cons, List.cons_append]
    unfold getTransfersGo
    simp only []
    rw [if_neg (by simp [hk, hb])]
    rw [ih (fun q hq => hp q (by simp [hq]))]
    simp

/-- C5: when a page fetch fails after earlier pages succeeded (each with a
non-empty batch and a non-empty continuation key), `get_asset_transfers`
returns exactly the transfers accumulated from those earlier pages. -/
theorem get_asset_transfers_partial (pages : List (List Transfer × String))
    (rest : List FetchResult) (hp : ∀ p ∈ pages, p.1 ≠ [] ∧ p.2 ≠ "") :
    get_asset_transfers
        ((pages.map fun p => FetchResult.ok p.1 (some p.2)) ++ FetchResult.err :: rest)
      = (pages.map Prod.fst).flatten := by
  unfold get_asset_transfers
  rw [getTransfersGo_pages pages rest hp []]
  simp

theorem get_asset_transfers_partial_witness :
    get_asset_transfers
        [FetchResult.ok [⟨some "0xA", some "0xB", some (.vint 1)⟩] (some "k"), FetchResult.err]
      = [⟨some "0xA", some "0xB", some (.vint 1)⟩] := by
  have h := get_asset_transfers_partial [([⟨some "0xA", some "0xB", some (.vint 1)⟩], "k")] []
    (by decide)
  simpa using h

/-- C6 counterexample: a failure on the very first page request yields the
empty list from `get_asset_transfers`, and `get_top_holders` then returns
the empty holder list; no error reaches the caller. -/
theorem first_page_failure_returns_empty :
    get_asset_transfers [FetchResult.err] = []
    ∧ get_top_holders [FetchResult.err] 5 = [] :=
  ⟨rfl, rfl⟩

/-- C6 amended: a failure on the very first page request is swallowed by
the pagination loop: `get_asset_transfers` returns the empty list, and
`get_top_holders` returns the empty result rather than an error. -/
theorem first_page_failure_amended (rest : List FetchResult) (top_n : Nat) :
    get_asset_transfers (FetchResult.err :: rest) = []
    ∧ get_top_holders (FetchResult.err :: rest) top_n = [] :=
  ⟨rfl, rfl⟩

/-- C7: the ranking step returns at most `top_n` pairs in descending
balance order (each later balance ≤ each earlier one), and empty inputs
yield empty results rather than an error. -/
theorem rankTop_spec (items : List (String × Int)) (top_n : Nat) :
    (rankTop items top_n).length ≤ top_n
    ∧ (rankTop items top_n).Pairwise (fun x y => y.2 ≤ x.2)
    ∧ rankTop [] top_n = []
    ∧ get_top_holders_from [] top_n = [] := by
  refine ⟨?_, ?_, ?_, ?_⟩
  · simp only [rankTop, List.length_take]
    omega
  · have hs : (items.mergeSort (fun x y => decide (y.2 ≤ x.2))).Pairwise
        (fun x y => decide (y.2 ≤ x.2) = true) := by
      apply List.sorted_mergeSort
      · intro a b c hab hbc
        simp only [decide_eq_true_eq] at *
        omega
      · intro a b
        simp only [Bool.or_eq_true, decide_eq_true_eq]
        omega
    have ht := List.Pairwise.sublist (List.take_sublist top_n _) hs
    exact ht.imp (fun h => by simpa using h)
  · simp [rankTop]
  · simp [get_top_holders_from]

theorem digitsVal_isSome (cs : List Char) (h : cs.all isHexChar = true) :
    ∀ acc, (digitsVal hexDigitVal 16 cs acc).isSome = true := by
  induction cs with
  | nil => intro acc; rfl
  | cons c cs ih =>
    intro acc
    simp only [List.all_cons, Bool.and_eq_true] at h
    have hc : (hexDigitVal c).isSome = true := h.1
    unfold digitsVal
    cases hd : hexDigitVal c with
    | none => rw [hd] at hc; exact absurd hc (by simp)
    | some d => simp only []; exact ih h.2 _

theorem dropHex0x_of_hex (cs : List Char) (h : cs.all isHexChar = true) : dropHex0x cs = cs := by
  unfold dropHex0x
  split
  · exfalso
    simp only [List.all_cons, Bool.and_eq_true] at h
    exact absurd h.2.1 (by decide)
  · exfalso
    simp only [List.all_cons, Bool.and_eq_true] at h
    exact absurd h.2.1 (by decide)
  · rfl

theorem pyIntOfChars_hex_isSome (cs : List Char) (hne : cs ≠ [])
    (h : cs.all isHexChar = true) :
    (pyIntOfChars hexDigitVal 16 true cs).isSome = true := by
  have hcore : (pyIntCore hexDigitVal 16 true cs).isSome = true := by
    unfold pyIntCore
    simp only [if_true]
    rw [dropHex0x_of_hex cs h]
    unfold parseDigits
    rw [if_neg (by simpa using hne)]
    exact digitsVal_isSome cs h 0
  unfold pyIntOfChars
  split
  · exfalso
    simp only [List.all_cons, Bool.and_eq_true] at h
    exact absurd h.1 (by decide)
  · exfalso
    simp only [List.all_cons, Bool.and_eq_true] at h
    exact absurd h.1 (by decide)
  · cases hc : pyIntCore hexDigitVal 16 true cs with
    | none => rw [hc] at hcore; exact absurd hcore (by simp)
    | some n => simp

/-- C8 amended: every string that, after one optional `0x` strip, consists
of exactly 40 hexadecimal characters is accepted by `is_valid_address`;
the converse fails, because `int(·, 16)` also accepts sign/prefix forms
(see the counterexample). -/
theorem is_valid_address_complete (s : String) (h : spec_valid_address s = true) :
    is_valid_address s = true := by
  unfold spec_valid_address at h
  simp only [Bool.and_eq_true, decide_eq_true_eq] at h
  obtain ⟨hlen, hhex⟩ := h
  have hs : s ≠ "" := by
    intro he
    subst he
    simp [strip0x, startsWith0x] at hlen
  unfold is_valid_address
  rw [if_neg hs]
  simp only []
  rw [if_neg (by omega)]
  unfold pyInt16
  have hne : (strip0x s).data ≠ [] := by
    intro he
    rw [he] at hlen
    simp at hlen
  exact pyIntOfChars_hex_isSome _ hne hhex

theorem is_valid_address_complete_witness :
    is_valid_address "0xabababababababababababababababababababab" = true :=
  is_valid_address_complete _ (by decide)

/-- C8 counterexample: `is_valid_address` accepts a 40-character string
that is not 40 hex characters — a minus sign followed by 39 hex digits —
because Python's `int(·, 16)` accepts a leading sign. -/
theorem is_valid_address_counterexample :
    is_valid_address "-fffffffffffffffffffffffffffffffffffffff" = true
    ∧ spec_valid_address "-fffffffffffffffffffffffffffffffffffffff" = false := by
  constructor <;> decide

/-- C9: a balance strictly below one trillion is taken as already
human-scaled, one of a trillion or more is divided by `10 ^ decimals`, and
the suffix is `M` from a readable value of one million and `K` from one
thousand. -/
theorem format_balance_spec (balance : Int) (decimals : Nat) :
    ((balance : ℚ) < 1000000000000 → readableBalance balance decimals = (balance : ℚ))
    ∧ (1000000000000 ≤ (balance : ℚ) →
        readableBalance balance decimals = (balance : ℚ) / 10 ^ decimals)
    ∧ (1000000 ≤ readableBalance balance decimals →
        (format_balance balance decimals).2 = Suffix.M)
    ∧ (readableBalance balance decimals < 1000000 →
        1000 ≤ readableBalance balance decimals →
        (format_balance balance decimals).2 = Suffix.K) := by
  refine ⟨?_, ?_, ?_, ?_⟩
  · intro h
    unfold readableBalance
    rw [if_pos h]
  · intro h
    unfold readableBalance
    rw [if_neg (not_lt.mpr h)]
  · intro h
    unfold format_balance
    simp only []
    rw [if_pos h]
  · intro h1 h2
    unfold format_balance
    simp only []
    rw [if_neg (not_le.mpr h1), if_pos h2]

theorem format_balance_spec_witness :
    readableBalance 5 18 = 5
    ∧ (format_balance 2000000000000 6).2 = Suffix.M
    ∧ (format_balance 2000000000000 9).2 = Suffix.K :=
  ⟨(format_balance_spec 5 18).1 (by norm_num),
   (format_balance_spec 2000000000000 6).2.2.1 (by norm_num [readableBalance]),
   (format_balance_spec 2000000000000 9).2.2.2 (by norm_num [readableBalance])
     (by norm_num [readableBalance])⟩

theorem pyLower_empty : pyLower "" = "" := rfl

theorem pyLower_zeroAddress : pyLower zeroAddress = zeroAddress := by decide

/-- C10: a missing or empty `from`/`to` field acts exactly like the
sentinel on that side — replacing it by the sentinel leaves the fold step
unchanged — and the empty string is never a key of the returned mapping. -/
theorem missing_address_like_sentinel (ts : List Transfer) (b : String → Int) (t : Transfer) :
    calculate_token_balances ts "" = none
    ∧ applyTransfer b { t with fromA := none }
        = applyTransfer b { t with fromA := some zeroAddress }
    ∧ applyTransfer b { t with fromA := some "" }
        = applyTransfer b { t with fromA := some zeroAddress }
    ∧ applyTransfer b { t with toA := none }
        = applyTransfer b { t with toA := some zeroAddress }
    ∧ applyTransfer b { t with toA := some "" }
        = applyTransfer b { t with toA := some zeroAddress } := by
  obtain ⟨f, g, v⟩ := t
  refine ⟨?_, ?_, ?_, ?_, ?_⟩
  · have h := rawBalances_eq_zero ts "" (Or.inl rfl)
    simp [calculate_token_balances, h]
  all_goals
    cases hv : pyParseValue (v.getD (PyValue.vstr "0x0")) <;>
      simp [applyTransfer, hv, pyLower_empty, pyLower_zeroAddress]

theorem mem_insertKey (ks : List String) (k a : String) :
    a ∈ insertKey ks k ↔ a ∈ ks ∨ a = k := by
  unfold insertKey
  split_ifs with h
  · constructor
    · exact Or.inl
    · rintro (ha | rfl)
      · exact ha
      · exact h
  · simp

theorem mem_foldl_insertKey (xs : List String) :
    ∀ (ks : List String) (a : String), a ∈ xs.foldl insertKey ks ↔ a ∈ ks ∨ a ∈ xs := by
  induction xs with
  | nil => intro ks a; simp
  | cons x xs ih =>
    intro ks a
    rw [List.foldl_cons, ih, mem_insertKey]
    simp [or_assoc, or_comm, eq_comm]
    tauto

theorem mem_keyOrder_aux (ts : List Transfer) :
    ∀ (ks : List String) (a : String),
      a ∈ ts.foldl (fun ks t => (touchedKeys t).foldl insertKey ks) ks
        ↔ a ∈ ks ∨ ∃ t ∈ ts, a ∈ touchedKeys t := by
  induction ts with
  | nil => intro ks a; simp
  | cons t ts ih =>
    intro ks a
    rw [List.foldl_cons, ih, mem_foldl_insertKey]
    simp [or_assoc]

theorem deltaT_ne_zero_mem_touchedKeys (t : Transfer) (a : String) (h : deltaT t a ≠ 0) :
    a ∈ touchedKeys t := by
  unfold deltaT at h
  unfold touchedKeys
  cases hv : pyParseValue (t.value.getD (PyValue.vstr "0x0")) with
  | none => rw [hv] at h; exact absurd rfl h
  | some v =>
    rw [hv] at h
    simp only [] at h ⊢
    split_ifs at h with h1 h2 h2
    · rw [if_pos h1.1]
      simp [h1.2]
    · rw [if_pos h1.1]
      simp [h1.2]
    · rw [if_pos h2.1]
      simp [h2.2]
    · exact absurd rfl h

theorem mem_keyOrder_of_rawBalances_ne (ts : List Transfer) (a : String)
    (h : rawBalances ts a ≠ 0) : a ∈ keyOrder ts := by
  unfold keyOrder
  rw [mem_keyOrder_aux]
  right
  by_contra hc
  push_neg at hc
  apply h
  unfold rawBalances
  rw [foldl_applyTransfer_point]
  have hz : ∀ x ∈ ts.map (fun t => deltaT t a), x = 0 := by
    intro x hx
    rcases List.mem_map.mp hx with ⟨t, ht, rfl⟩
    by_contra hne
    exact hc t ht (deltaT_ne_zero_mem_touchedKeys t a hne)
  rw [List.sum_eq_zero hz]
  norm_num

/-- The two views of the dict built by `calculate_token_balances` agree:
every item of the insertion-ordered item list `balancesItems` carries the
final accumulator value of its (strictly positive) key, and an address
appears among the items exactly when the key → value map holds it. -/
theorem balancesItems_coherent (ts : List Transfer) :
    (∀ p ∈ balancesItems ts, p.2 = rawBalances ts p.1 ∧ 0 < p.2)
    ∧ ∀ a : String, (∃ p ∈ balancesItems ts, p.1 = a) ↔ calculate_token_balances ts a ≠ none := by
  constructor
  · intro p hp
    rcases List.mem_filterMap.mp hp with ⟨x, -, hx⟩
    by_cases h : 0 < rawBalances ts x
    · simp only [if_pos h, Option.some.injEq] at hx
      subst hx
      exact ⟨rfl, h⟩
    · simp only [if_neg h] at hx
      exact Option.noConfusion hx
  · intro a
    constructor
    · rintro ⟨p, hp, rfl⟩
      rcases List.mem_filterMap.mp hp with ⟨x, -, hx⟩
      by_cases h : 0 < rawBalances ts x
      · simp only [if_pos h, Option.some.injEq] at hx
        subst hx
        simp only [calculate_token_balances, if_pos h]
        exact Option.noConfusion
      · simp only [if_neg h] at hx
        exact Option.noConfusion hx
    · intro h
      have hpos : 0 < rawBalances ts a := by
        by_contra hc
        exact h (by simp only [calculate_token_balances, if_neg hc])
      refine ⟨(a, rawBalances ts a), ?_, rfl⟩
      apply List.mem_filterMap.mpr
      refine ⟨a, mem_keyOrder_of_rawBalances_ne ts a (by omega), ?_⟩
      simp only [if_pos hpos]
